import Mathlib

/-!
# TradeTrack portfolio accounting engine — verification development

Shallow embedding of the portfolio accounting engine of the TradeTrack
application (`src/App.tsx`, `portfolio`/`stats` memo, lines 183–240, together
with the display helpers of `src/components/StatsCards.tsx` and the allocation
legend of the dashboard component).

Modelling conventions:
* JavaScript numbers are embedded as exact rationals (`ℚ`).  A field that the
  code passes through `Number(...)` and guards with `isNaN` is embedded as
  `Option ℚ`, `none` standing for a non-numeric (NaN) value.
* JavaScript strings are Lean `String`s; `""` stands for a missing/empty
  (falsy) string.  `toUpperCase`, `trim` and the lexicographic comparison used
  for `localeCompare` are embedded as structurally recursive functions on the
  character list so that concrete runs evaluate inside Lean.
* The price map (`Record<string, number>`) is an association list
  `List (String × ℚ)`; `currentPrices[symbol] || null` becomes `priceFor`,
  which coerces a stored `0` (falsy) to `none`.
* `Array.prototype.sort` (stable in JavaScript) is embedded as Mathlib's
  stable `List.insertionSort`.
* `Object.entries` iterates a `Record`'s string keys in insertion order, so
  grouping is embedded as an insertion-ordered association list (`groupTx`).
-/

namespace TradeTrack

/-- The two currencies handled by the application (`currency: 'USD' | 'CAD'`
in the transaction type; StatsCards reports the two separately). -/
inductive Currency where
  | USD
  | CAD
deriving DecidableEq, Repr

/-- One trade record, restricted to the fields the accounting engine reads.
`shares`/`price` are `Option ℚ`: `none` models a value for which
`Number(t.shares)` / `Number(t.price)` yields NaN.  `type` is kept as a raw
string because the engine tests `t.type === 'BUY'` and treats every other
string as a sell. -/
structure Transaction where
  id : String
  date : ℤ
  type : String
  symbol : String
  name : String
  shares : Option ℚ
  price : Option ℚ
  currency : Currency
deriving DecidableEq, Repr

/-- Embedding of `String.prototype.toUpperCase` (ASCII-adequate, via
`Char.toUpper`). -/
def toUpperStr (s : String) : String := String.mk (s.data.map Char.toUpper)

/-- Whitespace test used by the embedding of `String.prototype.trim`. -/
def isWS (c : Char) : Bool := c == ' ' || c == '\t' || c == '\n' || c == '\r'

/-- Embedding of `String.prototype.trim`: drop leading and trailing
whitespace. -/
def trimStr (s : String) : String :=
  String.mk (((s.data.dropWhile isWS).reverse.dropWhile isWS).reverse)

/-- `(s || 'UNKNOWN').toUpperCase().trim()` — the symbol normalisation applied
in `App.tsx` line 186 when building the grouping key. -/
def normSym (s : String) : String :=
  trimStr (toUpperStr (if s = "" then "UNKNOWN" else s))

/-- The grouping key of a transaction (`App.tsx` line 186). -/
def keyOf (t : Transaction) : String := normSym t.symbol

/-- Append transaction `t` to the group keyed `k`, creating the group at the
end when the key is new — the behaviour of
`if (!groups[symbolKey]) groups[symbolKey] = []; groups[symbolKey].push(t)`
on an insertion-ordered record (`App.tsx` lines 187–188). -/
def insertGroup (gs : List (String × List Transaction)) (k : String)
    (t : Transaction) : List (String × List Transaction) :=
  match gs with
  | [] => [(k, [t])]
  | (k₁, ts) :: rest =>
    if k₁ = k then (k₁, ts ++ [t]) :: rest else (k₁, ts) :: insertGroup rest k t

/-- Partition the transaction list into symbol groups, keys in first-occurrence
order and each group's members in arrival order (`App.tsx` lines 184–189,
iterated by `Object.entries` in insertion order). -/
def groupTx (transactions : List Transaction) : List (String × List Transaction) :=
  transactions.foldl (fun gs t => insertGroup gs (keyOf t) t) []

/-- `txs.sort((a, b) => date(a) - date(b))` — stable ascending sort by date
(`App.tsx` line 195). -/
def sortByDate (txs : List Transaction) : List Transaction :=
  List.insertionSort (fun a b => a.date ≤ b.date) txs

/-- The running replay state of one symbol group (`App.tsx` line 196). -/
structure ReplayState where
  sharesHeld : ℚ
  totalCost : ℚ
  realizedPL : ℚ
deriving DecidableEq, Repr

/-- The guarded average-cost division
`sharesHeld > 0 ? totalCost / sharesHeld : 0`, used both at a sell
(`App.tsx` line 205) and when emitting `avgCost` (line 227). -/
def avgCostOf (sharesHeld totalCost : ℚ) : ℚ :=
  if 0 < sharesHeld then totalCost / sharesHeld else 0

/-- One step of the replay loop (`App.tsx` lines 198–210): skip when
`Number(t.shares)` or `Number(t.price)` is NaN, add shares and cost on a BUY,
otherwise realise P/L against the average cost and reduce the position. -/
def replayStep (st : ReplayState) (t : Transaction) : ReplayState :=
  match t.shares, t.price with
  | some shares, some price =>
    if t.type = "BUY" then
      { st with sharesHeld := st.sharesHeld + shares,
                totalCost := st.totalCost + shares * price }
    else
      let avg := avgCostOf st.sharesHeld st.totalCost
      { sharesHeld := st.sharesHeld - shares,
        totalCost := st.totalCost - shares * avg,
        realizedPL := st.realizedPL + (shares * price - shares * avg) }
  | _, _ => st

/-- The close-out epsilon `0.000001` (`App.tsx` line 212). -/
def epsilon : ℚ := 1 / 1000000

/-- The close-out clamp
`if (sharesHeld < 0.000001) { sharesHeld = 0; totalCost = 0; }`
(`App.tsx` line 212). -/
def clampCloseOut (st : ReplayState) : ReplayState :=
  if st.sharesHeld < epsilon then { st with sharesHeld := 0, totalCost := 0 } else st

/-- `currentPrices[symbol] || null` (`App.tsx` line 213): a missing entry and a
stored falsy `0` both yield `none`. -/
def priceFor (prices : List (String × ℚ)) (symbol : String) : Option ℚ :=
  match prices.lookup symbol with
  | some p => if p = 0 then none else some p
  | none => none

/-- The per-instrument summary pushed for each group
(`App.tsx` lines 223–232). -/
structure StockSummary where
  symbol : String
  name : String
  totalShares : ℚ
  avgCost : ℚ
  currentPrice : Option ℚ
  totalInvested : ℚ
  realizedPL : ℚ
  transactions : List Transaction
deriving DecidableEq, Repr

/-- The replay of one symbol group from the zero state (`App.tsx` lines
195–210): sort by date, then fold the replay step. -/
def replayGroup (txs : List Transaction) : ReplayState :=
  (sortByDate txs).foldl replayStep ⟨0, 0, 0⟩

/-- Process one symbol group (`App.tsx` lines 194–232): sort by date, replay,
clamp, and emit the summary.  `totalShares`/`totalInvested` are the
post-clamp `sharesHeld`/`totalCost`; `name` is `txs[0]?.name || symbol`. -/
def processGroup (prices : List (String × ℚ)) (symbol : String)
    (txs : List Transaction) : StockSummary :=
  let sorted := sortByDate txs
  let st := clampCloseOut (replayGroup txs)
  { symbol := symbol
    name := match sorted.head? with
            | some t => if t.name = "" then symbol else t.name
            | none => symbol
    totalShares := st.sharesHeld
    avgCost := avgCostOf st.sharesHeld st.totalCost
    currentPrice := priceFor prices symbol
    totalInvested := st.totalCost
    realizedPL := st.realizedPL
    transactions := sorted }

/-- The aggregate statistics record (`CurrencyStats` shape consumed by
`StatsCards.tsx`; in `App.tsx` lines 192/235 a single such record is
accumulated). -/
structure Stats where
  totalValue : ℚ
  totalCostBasis : ℚ
  totalRealizedPL : ℚ
  totalUnrealizedPL : ℚ
deriving DecidableEq, Repr

/-- The aggregate accumulation performed for each group (`App.tsx` lines
213–221), reading the group's post-clamp values back off its summary
(`s.totalShares` is the clamped `sharesHeld`, `s.totalInvested` the clamped
`totalCost`):
`totalRealizedPL += realizedPL; totalCostBasis += totalCost;` then market
valuation when a price is known and shares are held, cost-basis valuation
otherwise. -/
def accumStats (st : Stats) (s : StockSummary) : Stats :=
  let st₁ := { st with totalRealizedPL := st.totalRealizedPL + s.realizedPL,
                       totalCostBasis := st.totalCostBasis + s.totalInvested }
  match s.currentPrice with
  | some cp =>
    if 0 < s.totalShares then
      { st₁ with totalValue := st₁.totalValue + s.totalShares * cp,
                 totalUnrealizedPL := st₁.totalUnrealizedPL + (s.totalShares * cp - s.totalInvested) }
    else { st₁ with totalValue := st₁.totalValue + s.totalInvested }
  | none => { st₁ with totalValue := st₁.totalValue + s.totalInvested }

/-- The per-group summaries in group insertion order (the order in which the
`Object.entries(groups).forEach` body of `App.tsx` lines 194–233 runs). -/
def groupSummaries (transactions : List Transaction)
    (prices : List (String × ℚ)) : List StockSummary :=
  (groupTx transactions).map (fun g => processGroup prices g.1 g.2)

/-- The final aggregate statistics: the accumulation of `App.tsx` lines
213–221 over every group, started from the zero record of line 192. -/
def computeStats (transactions : List Transaction)
    (prices : List (String × ℚ)) : Stats :=
  (groupSummaries transactions prices).foldl accumStats ⟨0, 0, 0, 0⟩

/-- Lexicographic character-list comparison — the embedding of the
`a.symbol.localeCompare(b.symbol)` comparator of `App.tsx` line 235. -/
def lexLe : List Char → List Char → Bool
  | [], _ => true
  | _ :: _, [] => false
  | a :: as, b :: bs => if a < b then true else if b < a then false else lexLe as bs

/-- String comparison used to sort the emitted summaries. -/
def symLe (a b : StockSummary) : Prop := lexLe a.symbol.data b.symbol.data = true

instance : DecidableRel symLe := fun a b => by unfold symLe; infer_instance

/-- `stockSummaries.sort((a, b) => a.symbol.localeCompare(b.symbol))`
(`App.tsx` line 235). -/
def sortSummaries (l : List StockSummary) : List StockSummary :=
  List.insertionSort symLe l

/-- The emitted portfolio: per-symbol summaries sorted by symbol
(`App.tsx` line 235). -/
def computePortfolio (transactions : List Transaction)
    (prices : List (String × ℚ)) : List StockSummary :=
  sortSummaries (groupSummaries transactions prices)

/-- The pair returned by the `useMemo` of `App.tsx` lines 183–236. -/
def portfolioAndStats (transactions : List Transaction)
    (prices : List (String × ℚ)) : List StockSummary × Stats :=
  (computePortfolio transactions prices, computeStats transactions prices)

/-- The allocation filter `s.totalShares > 0 && s.currentPrice`
(`App.tsx` line 239); `s.currentPrice` is truthy when non-null and
non-zero. -/
def allocPred (s : StockSummary) : Bool :=
  decide (0 < s.totalShares) &&
    (match s.currentPrice with
     | some p => !(p == 0)
     | none => false)

/-- `allocationData` (`App.tsx` lines 238–240): symbol paired with
`(s.currentPrice || 0) * s.totalShares` for each open, priced summary. -/
def allocationData (transactions : List Transaction)
    (prices : List (String × ℚ)) : List (String × ℚ) :=
  ((computePortfolio transactions prices).filter allocPred).map
    (fun s => (s.symbol, s.currentPrice.getD 0 * s.totalShares))

/-- The allocation legend percentages
`(entry.value / stats.totalValue) * 100` (dashboard allocation legend). -/
def allocationPercents (transactions : List Transaction)
    (prices : List (String × ℚ)) : List ℚ :=
  (allocationData transactions prices).map
    (fun e => e.2 / (computeStats transactions prices).totalValue * 100)

/-- The percent-return guard of `StatsCards.tsx` lines 38–39:
`totalCostBasis > 0 ? (totalUnrealizedPL / totalCostBasis) * 100 : 0`. -/
def unrealizedPercent (st : Stats) : ℚ :=
  if 0 < st.totalCostBasis then st.totalUnrealizedPL / st.totalCostBasis * 100 else 0

/-- The `totalValue` contribution of one group (`App.tsx` lines 217–221):
market value when a price is known and shares are held, cost basis
otherwise. -/
def valueContrib (s : StockSummary) : ℚ :=
  match s.currentPrice with
  | some cp => if 0 < s.totalShares then s.totalShares * cp else s.totalInvested
  | none => s.totalInvested

/-- The aggregate update for one group as the specification words it
(spec §4.1 step 7), for comparison with the implementation's `accumStats`:
`totalCostBasis += totalCost`; `totalRealizedPL += realizedPL`; if
`currentPrice` known and `sharesHeld > 0`, `totalValue += sharesHeld *
currentPrice` and `totalUnrealizedPL += sharesHeld*currentPrice - totalCost`;
otherwise `totalValue += totalCost`. -/
def statsAccumSpec (st : Stats) (s : StockSummary) : Stats :=
  { totalValue := st.totalValue +
      (if s.currentPrice ≠ none ∧ 0 < s.totalShares
        then s.totalShares * s.currentPrice.getD 0 else s.totalInvested)
    totalCostBasis := st.totalCostBasis + s.totalInvested
    totalRealizedPL := st.totalRealizedPL + s.realizedPL
    totalUnrealizedPL := st.totalUnrealizedPL +
      (if s.currentPrice ≠ none ∧ 0 < s.totalShares
        then s.totalShares * s.currentPrice.getD 0 - s.totalInvested else 0) }

/-- The currency-keyed aggregate record consumed by `StatsCards.tsx`
(`const { USD, CAD } = stats`). -/
structure PortfolioStats where
  USD : Stats
  CAD : Stats
deriving DecidableEq, Repr

/-- Select one currency bucket of a `PortfolioStats`. -/
def statsFor (ps : PortfolioStats) : Currency → Stats
  | .USD => ps.USD
  | .CAD => ps.CAD

/-- Modelled from the spec: the currency of a symbol group, "the currency of
the first transaction in sorted order" (spec §4.1 step 1); USD — the default
currency of §3 — for an empty group. -/
def groupCurrency (txs : List Transaction) : Currency :=
  match (sortByDate txs).head? with
  | some t => t.currency
  | none => .USD

/-- Accumulate one group's summary into the bucket of the given currency. -/
def bucketAccum (ps : PortfolioStats) (c : Currency) (s : StockSummary) :
    PortfolioStats :=
  match c with
  | .USD => { ps with USD := accumStats ps.USD s }
  | .CAD => { ps with CAD := accumStats ps.CAD s }

/-- Modelled from the spec: the currency-partitioned aggregate statistics.
`src/App.tsx` accumulates a single flat `stats` record, while
`src/components/StatsCards.tsx` consumes a `PortfolioStats` with separate
`USD` and `CAD` buckets; the producer of that record is not part of the
source tree.  Following spec §4.1 ("Accumulate into the group's currency
bucket", step 7, with the group currency of step 1), each group's summary is
accumulated — by the same per-group accumulation as the flat engine — into
the bucket of the group's currency. -/
def currencyStatsModel (transactions : List Transaction)
    (prices : List (String × ℚ)) : PortfolioStats :=
  (groupTx transactions).foldl
    (fun ps g => bucketAccum ps (groupCurrency g.2) (processGroup prices g.1 g.2))
    ⟨⟨0, 0, 0, 0⟩, ⟨0, 0, 0, 0⟩⟩

/-- Transactions used by the average-cost test scenario: BUY 10 @ 100, then
BUY 10 @ 200 on the same symbol. -/
def txBuy1 : Transaction :=
  { id := "t1", date := 1, type := "BUY", symbol := "AAPL", name := "Apple",
    shares := some 10, price := some 100, currency := .USD }

def txBuy2 : Transaction :=
  { id := "t2", date := 2, type := "BUY", symbol := "AAPL", name := "Apple",
    shares := some 10, price := some 200, currency := .USD }

def txSell5 : Transaction :=
  { id := "t3", date := 3, type := "SELL", symbol := "AAPL", name := "Apple",
    shares := some 5, price := some 180, currency := .USD }

/-- A sale that exactly closes the position opened by `txBuy1`. -/
def txSellAll : Transaction :=
  { id := "t4", date := 4, type := "SELL", symbol := "AAPL", name := "Apple",
    shares := some 10, price := some 150, currency := .USD }

/-- A transaction whose `shares` field is non-numeric (NaN). -/
def txNaN : Transaction :=
  { id := "t5", date := 5, type := "BUY", symbol := "AAPL", name := "Apple",
    shares := none, price := some 7, currency := .USD }

/-- A CAD-denominated buy on symbol `BNS`. -/
def txCadA : Transaction :=
  { id := "t6", date := 1, type := "BUY", symbol := "BNS", name := "Scotiabank",
    shares := some 1, price := some 10, currency := .CAD }

/-- A USD-denominated buy on the same symbol `BNS` (a mixed-currency group). -/
def txUsdA : Transaction :=
  { id := "t7", date := 2, type := "BUY", symbol := "BNS", name := "Scotiabank",
    shares := some 1, price := some 20, currency := .USD }

/-- Well-formedness of a grouping over a source list: every group is nonempty
and each member carries the group's key and comes from the source list. -/
def GroupsWF (gs : List (String × List Transaction))
    (L : List Transaction) : Prop :=
  ∀ g ∈ gs, g.2 ≠ [] ∧ ∀ x ∈ g.2, keyOf x = g.1 ∧ x ∈ L

end TradeTrack

namespace TradeTrack

/-- Helper for evaluating the `t.type === 'BUY'` test on concrete sells. -/
theorem type_SELL_ne_BUY : ("SELL" = "BUY") = False := by decide

/-- Symbol normalisation evaluated on the concrete symbols of the examples. -/
theorem normSym_AAPL : normSym "AAPL" = "AAPL" := by decide

theorem normSym_BNS : normSym "BNS" = "BNS" := by decide

/-- **C1.** Replaying BUY 10@100 then BUY 10@200 on one symbol yields a single
summary with `avgCost = 150`, `totalShares = 20`, `totalInvested = 3000`;
additionally replaying SELL 5@180 yields `realizedPL = 150`,
`totalShares = 15`, `totalInvested = 2250`. -/
theorem avgCost_and_realizedPL_example :
    (computePortfolio [txBuy1, txBuy2] []).map
        (fun s => (s.avgCost, s.totalShares, s.totalInvested)) =
      [(150, 20, 3000)] ∧
    (computePortfolio [txBuy1, txBuy2, txSell5] []).map
        (fun s => (s.realizedPL, s.totalShares, s.totalInvested)) =
      [(150, 15, 2250)] := by
  constructor <;>
    norm_num +decide [computePortfolio, groupSummaries, groupTx, insertGroup, keyOf,
      normSym, toUpperStr, trimStr, isWS, sortSummaries, List.insertionSort,
      List.orderedInsert, processGroup, replayGroup, sortByDate, replayStep,
      clampCloseOut, avgCostOf, priceFor, epsilon, txBuy1, txBuy2, txSell5]

/-- **C3.** A transaction whose `shares` or `price` is non-numeric (NaN) is
skipped during replay: the replay step leaves the running state
`(sharesHeld, totalCost, realizedPL)` unchanged (and raises no error, the
step being total), and replaying any list containing it yields the same
accounting state as replaying the list with the transaction omitted. -/
theorem nan_skipped (t : Transaction) (h : t.shares = none ∨ t.price = none) :
    (∀ st : ReplayState, replayStep st t = st) ∧
    ∀ (xs ys : List Transaction) (st : ReplayState),
      (xs ++ t :: ys).foldl replayStep st = (xs ++ ys).foldl replayStep st := by
  have hstep : ∀ st : ReplayState, replayStep st t = st := by
    intro st
    cases hs : t.shares <;> cases hp : t.price <;> simp_all [replayStep]
  exact ⟨hstep, fun xs ys st => by simp [List.foldl_append, hstep]⟩

/-- Witness for C3: the concrete NaN-share transaction `txNaN` is a no-op. -/
theorem nan_skipped_witness :
    replayStep ⟨1, 2, 3⟩ txNaN = ⟨1, 2, 3⟩ ∧
    [txBuy1, txNaN].foldl replayStep ⟨0, 0, 0⟩ =
      [txBuy1].foldl replayStep ⟨0, 0, 0⟩ := by
  refine ⟨(nan_skipped txNaN (Or.inl rfl)).1 _, ?_⟩
  have h := (nan_skipped txNaN (Or.inl rfl)).2 [txBuy1] [] ⟨0, 0, 0⟩
  simpa using h

/-- **C4.** A group whose net shares after replay lie within `1e-6` of zero
emits a summary with `totalShares` exactly `0` and `totalInvested` exactly
`0`. -/
theorem closeout_clamp (prices : List (String × ℚ)) (symbol : String)
    (txs : List Transaction)
    (h : |(replayGroup txs).sharesHeld| < epsilon) :
    (processGroup prices symbol txs).totalShares = 0 ∧
    (processGroup prices symbol txs).totalInvested = 0 := by
  have hlt : (replayGroup txs).sharesHeld < epsilon := (abs_lt.mp h).2
  simp [processGroup, clampCloseOut, hlt]

/-- Witness for C4: buying 10 shares and selling all 10 nets to zero and the
summary reports exactly zero shares and zero invested. -/
theorem closeout_clamp_witness :
    (processGroup [] "AAPL" [txBuy1, txSellAll]).totalShares = 0 ∧
    (processGroup [] "AAPL" [txBuy1, txSellAll]).totalInvested = 0 :=
  closeout_clamp [] "AAPL" [txBuy1, txSellAll] (by
    norm_num +decide [replayGroup, sortByDate, List.insertionSort,
      List.orderedInsert, replayStep, avgCostOf, epsilon, txBuy1, txSellAll])

/-- Membership in the sorted portfolio is membership in the per-group
summaries (sorting permutes). -/
theorem mem_portfolio_iff (T : List Transaction) (P : List (String × ℚ))
    (s : StockSummary) :
    s ∈ computePortfolio T P ↔ s ∈ groupSummaries T P := by
  rw [computePortfolio, sortSummaries]
  exact (List.perm_insertionSort symLe _).mem_iff

/-- **C5.** For every input, every emitted summary has `totalShares ≥ 0`: the
close-out clamp zeroes any holding below the epsilon, so no summary reports a
negative open quantity. -/
theorem totalShares_nonneg (T : List Transaction) (P : List (String × ℚ))
    (s : StockSummary) (h : s ∈ computePortfolio T P) : 0 ≤ s.totalShares := by
  rw [mem_portfolio_iff] at h
  obtain ⟨g, hg, rfl⟩ := List.mem_map.mp h
  by_cases hlt : (replayGroup g.2).sharesHeld < epsilon
  · simp [processGroup, clampCloseOut, hlt]
  · simp only [processGroup, clampCloseOut, if_neg hlt]
    have h₁ : (0:ℚ) < epsilon := by norm_num [epsilon]
    have h₂ := not_lt.mp hlt
    linarith

/-- Witness for C5: the summary of a single concrete buy is in the portfolio
and its share count is non-negative. -/
theorem totalShares_nonneg_witness :
    0 ≤ (processGroup [] "AAPL" [txBuy1]).totalShares :=
  totalShares_nonneg [txBuy1] [] _ (by
    norm_num +decide [computePortfolio, groupSummaries, groupTx, insertGroup,
      keyOf, normSym_AAPL, sortSummaries, List.insertionSort,
      List.orderedInsert, txBuy1])

/-- **C6.** The engine's aggregate statistics are exactly the fold, over the
per-group summaries in group order, of the update described by the spec:
`totalCostBasis += totalCost`, `totalRealizedPL += realizedPL`, market
valuation into `totalValue`/`totalUnrealizedPL` when the price is known and
shares are held, cost-basis valuation of `totalValue` otherwise. -/
theorem stats_accumulation (T : List Transaction) (P : List (String × ℚ)) :
    computeStats T P = (groupSummaries T P).foldl statsAccumSpec ⟨0, 0, 0, 0⟩ := by
  have hstep : accumStats = statsAccumSpec := by
    funext st s
    unfold accumStats statsAccumSpec
    cases hc : s.currentPrice with
    | none => simp
    | some cp => by_cases hpos : 0 < s.totalShares <;> simp [hpos]
  rw [computeStats, hstep]

/-- **C7.** The percent-return and average-cost divisions are guarded: a zero
cost basis yields percent `0`, a positive cost basis yields
`totalUnrealizedPL / totalCostBasis * 100`, and the average-cost division
yields `0` whenever no positive holding exists. -/
theorem division_guards (st : Stats) :
    (st.totalCostBasis = 0 → unrealizedPercent st = 0) ∧
    (0 < st.totalCostBasis →
      unrealizedPercent st = st.totalUnrealizedPL / st.totalCostBasis * 100) ∧
    ∀ sharesHeld totalCost : ℚ,
      sharesHeld ≤ 0 → avgCostOf sharesHeld totalCost = 0 := by
  refine ⟨fun h => ?_, fun h => ?_, fun sh tc h => ?_⟩
  · simp [unrealizedPercent, h]
  · simp [unrealizedPercent, h]
  · simp [avgCostOf, not_lt.mpr h]

/-- Witness for C7 at concrete stats records and holdings. -/
theorem division_guards_witness :
    unrealizedPercent ⟨0, 0, 0, 0⟩ = 0 ∧
    unrealizedPercent ⟨0, 2, 0, 50⟩ = 50 / 2 * 100 ∧
    avgCostOf 0 7 = 0 := by
  refine ⟨(division_guards ⟨0, 0, 0, 0⟩).1 rfl, ?_,
    (division_guards ⟨0, 0, 0, 0⟩).2.2 0 7 le_rfl⟩
  have h := (division_guards ⟨0, 2, 0, 50⟩).2.1 (by norm_num)
  simpa using h

/-- **C8.** The engine is deterministic: two evaluations of the summaries-and-
stats computation on the same transaction list and price map are identical
(the embedding is a pure function of its inputs). -/
theorem engine_deterministic (T : List Transaction) (P : List (String × ℚ)) :
    portfolioAndStats T P = portfolioAndStats T P := rfl

/-- Removing every entry of a key from the price map makes its lookup miss. -/
theorem lookup_filter_self (P : List (String × ℚ)) (sym : String) :
    (P.filter (fun e => e.1 != sym)).lookup sym = none := by
  induction P with
  | nil => rfl
  | cons e rest ih =>
    by_cases h : e.1 = sym
    · simp [List.filter_cons, h, ih]
    · have hb : (sym == e.1) = false := beq_eq_false_iff_ne.mpr (Ne.symm h)
      simp [List.filter_cons, h, List.lookup, hb, ih]

/-- Removing every entry of one key from the price map leaves the lookup of
any other key unchanged. -/
theorem lookup_filter_ne (P : List (String × ℚ)) (sym s : String)
    (hs : s ≠ sym) :
    (P.filter (fun e => e.1 != sym)).lookup s = P.lookup s := by
  induction P with
  | nil => rfl
  | cons e rest ih =>
    by_cases h : e.1 = sym
    · subst h
      have hb : (s == e.1) = false := beq_eq_false_iff_ne.mpr hs
      simp [List.filter_cons, List.lookup, hb, ih]
    · by_cases h₂ : s = e.1
      · subst h₂
        simp [List.filter_cons, List.lookup, h]
      · have hb : (s == e.1) = false := beq_eq_false_iff_ne.mpr h₂
        simp [List.filter_cons, List.lookup, h, hb, ih]

/-- The engine reads the price map only through `priceFor`: two maps with the
same `priceFor` results produce the same output. -/
theorem engine_congr_prices (T : List Transaction) (P Q : List (String × ℚ))
    (h : ∀ x, priceFor P x = priceFor Q x) :
    portfolioAndStats T P = portfolioAndStats T Q := by
  have hpg : (fun g : String × List Transaction => processGroup P g.1 g.2) =
      (fun g => processGroup Q g.1 g.2) := by
    funext g
    unfold processGroup
    rw [h]
  have hg : groupSummaries T P = groupSummaries T Q := by
    rw [groupSummaries, groupSummaries, hpg]
  rw [portfolioAndStats, portfolioAndStats, computePortfolio, computePortfolio,
    computeStats, computeStats, hg]

/-- **C10.** A symbol whose price-map entry is the number `0` behaves exactly
as if the symbol were absent: its effective price is `null`, and the whole
summaries-and-stats output equals the output on the map with the entry
removed (so the group is valued at cost basis, contributing nothing to
`totalUnrealizedPL`). -/
theorem zero_price_as_absent (T : List Transaction) (P : List (String × ℚ))
    (sym : String) (h : P.lookup sym = some 0) :
    priceFor P sym = none ∧
    portfolioAndStats T P =
      portfolioAndStats T (P.filter (fun e => e.1 != sym)) := by
  have hself : priceFor P sym = none := by simp [priceFor, h]
  refine ⟨hself, engine_congr_prices T P _ fun x => ?_⟩
  by_cases hx : x = sym
  · subst hx
    rw [hself, priceFor, lookup_filter_self]
  · rw [priceFor, priceFor, lookup_filter_ne P sym x hx]

/-- Witness for C10: a concrete map storing price `0` for `AAPL`. -/
theorem zero_price_as_absent_witness :
    priceFor [("AAPL", 0)] "AAPL" = none ∧
    portfolioAndStats [txBuy1] [("AAPL", 0)] =
      portfolioAndStats [txBuy1]
        ([("AAPL", (0:ℚ))].filter (fun e => e.1 != "AAPL")) :=
  zero_price_as_absent [txBuy1] [("AAPL", 0)] "AAPL" (by simp)

/-- The final `totalValue` is the initial one plus the sum of the per-group
valuation contributions. -/
theorem foldl_accumStats_totalValue (l : List StockSummary) (st : Stats) :
    (l.foldl accumStats st).totalValue = st.totalValue + (l.map valueContrib).sum := by
  induction l generalizing st with
  | nil => simp
  | cons s rest ih =>
    have hstep : (accumStats st s).totalValue = st.totalValue + valueContrib s := by
      unfold accumStats valueContrib
      cases s.currentPrice with
      | none => simp
      | some cp => by_cases hpos : 0 < s.totalShares <;> simp [hpos]
    rw [List.foldl_cons, ih, hstep, List.map_cons, List.sum_cons]
    ring

/-- On a summary passing the allocation filter, the valuation contribution is
the allocation value `(s.currentPrice || 0) * s.totalShares`. -/
theorem valueContrib_of_allocPred (s : StockSummary) (h : allocPred s = true) :
    valueContrib s = s.currentPrice.getD 0 * s.totalShares := by
  unfold allocPred at h
  unfold valueContrib
  cases hc : s.currentPrice with
  | none => rw [hc] at h; simp at h
  | some cp =>
    rw [hc] at h
    simp only [Bool.and_eq_true, decide_eq_true_eq] at h
    simp [h.1, mul_comm]

/-- Every emitted summary's `currentPrice` is the `priceFor` lookup of its own
symbol. -/
theorem summary_currentPrice (T : List Transaction) (P : List (String × ℚ))
    (s : StockSummary) (h : s ∈ groupSummaries T P) :
    s.currentPrice = priceFor P s.symbol := by
  obtain ⟨g, hg, rfl⟩ := List.mem_map.mp h
  rfl

/-- `priceFor` never returns a stored zero (the `|| null` coercion). -/
theorem priceFor_ne_some_zero (P : List (String × ℚ)) (x : String) :
    priceFor P x ≠ some 0 := by
  unfold priceFor
  cases h : P.lookup x with
  | none => simp
  | some p => by_cases hp : p = 0 <;> simp [hp]

/-- **C9 counterexample.** On the empty input every emitted summary — there is
none — vacuously is an open position with a known price, yet the allocation
percentages sum to `0`, not `100`. -/
theorem allocation_sum_counterexample :
    (∀ s ∈ computePortfolio ([] : List Transaction) [],
      0 < s.totalShares ∧ s.currentPrice ≠ none) ∧
    (allocationPercents [] []).sum ≠ 100 := by
  constructor
  · intro s hs
    simp [computePortfolio, groupSummaries, groupTx, sortSummaries,
      List.insertionSort] at hs
  · norm_num [allocationPercents, allocationData, computePortfolio,
      groupSummaries, groupTx, sortSummaries, List.insertionSort]

/-- **C9 (amended).** If every emitted summary is an open position with a
known `currentPrice` and the aggregate `totalValue` is nonzero, the
allocation percentages sum to exactly `100` in exact arithmetic. -/
theorem allocation_percents_sum (T : List Transaction) (P : List (String × ℚ))
    (hall : ∀ s ∈ computePortfolio T P, 0 < s.totalShares ∧ s.currentPrice ≠ none)
    (hV : (computeStats T P).totalValue ≠ 0) :
    (allocationPercents T P).sum = 100 := by
  have hpred : ∀ s ∈ computePortfolio T P, allocPred s = true := by
    intro s hs
    obtain ⟨h1, h2⟩ := hall s hs
    have hcp := summary_currentPrice T P s ((mem_portfolio_iff T P s).mp hs)
    cases hc : s.currentPrice with
    | none => exact absurd hc h2
    | some p =>
      have hp : p ≠ 0 := by
        intro h0
        subst h0
        rw [hc] at hcp
        exact priceFor_ne_some_zero P s.symbol hcp.symm
      simp [allocPred, hc, h1, hp]
  have hfilter : (computePortfolio T P).filter allocPred = computePortfolio T P :=
    List.filter_eq_self.mpr hpred
  have hperm : (computePortfolio T P).Perm (groupSummaries T P) := by
    rw [computePortfolio, sortSummaries]
    exact List.perm_insertionSort symLe _
  have hVsum : (computeStats T P).totalValue =
      ((computePortfolio T P).map valueContrib).sum := by
    rw [computeStats, foldl_accumStats_totalValue, (hperm.map valueContrib).sum_eq]
    simp
  have hpcts : allocationPercents T P = (computePortfolio T P).map
      (fun s => valueContrib s * (100 / (computeStats T P).totalValue)) := by
    rw [allocationPercents, allocationData, hfilter, List.map_map]
    refine List.map_congr_left fun s hs => ?_
    have hv := valueContrib_of_allocPred s (hpred s hs)
    simp only [Function.comp_apply]
    rw [hv, div_mul_eq_mul_div, mul_div_assoc]
  rw [hpcts, List.sum_map_mul_right, ← hVsum]
  field_simp

/-- Splitting a grouped fold at a final element. -/
theorem groupTx_append_single (L : List Transaction) (t : Transaction) :
    groupTx (L ++ [t]) = insertGroup (groupTx L) (keyOf t) t := by
  rw [groupTx, groupTx, List.foldl_append, List.foldl_cons, List.foldl_nil]

/-- Unfolding equations of `insertGroup`. -/
theorem insertGroup_nil (k : String) (t : Transaction) :
    insertGroup [] k t = [(k, [t])] := rfl

theorem insertGroup_cons (k₁ : String) (ts : List Transaction)
    (rest : List (String × List Transaction)) (k : String) (t : Transaction) :
    insertGroup ((k₁, ts) :: rest) k t =
      if k₁ = k then (k₁, ts ++ [t]) :: rest
      else (k₁, ts) :: insertGroup rest k t := rfl

/-- Group well-formedness is monotone in the source list. -/
theorem GroupsWF.mono {gs : List (String × List Transaction)}
    {L M : List Transaction} (h : GroupsWF gs L) (hLM : ∀ x ∈ L, x ∈ M) :
    GroupsWF gs M := by
  intro g hg
  obtain ⟨hne, hmem⟩ := h g hg
  exact ⟨hne, fun x hx => ⟨(hmem x hx).1, hLM x (hmem x hx).2⟩⟩

/-- `insertGroup` preserves group well-formedness. -/
theorem GroupsWF.insertGroup {gs : List (String × List Transaction)}
    {L : List Transaction} (h : GroupsWF gs L) {k : String} {t : Transaction}
    (hk : keyOf t = k) (ht : t ∈ L) : GroupsWF (insertGroup gs k t) L := by
  induction gs with
  | nil =>
    intro g hg
    simp only [TradeTrack.insertGroup, List.mem_singleton] at hg
    subst hg
    refine ⟨by simp, fun x hx => ?_⟩
    simp only [List.mem_singleton] at hx
    subst hx
    exact ⟨hk, ht⟩
  | cons e rest ih =>
    obtain ⟨k₁, ts⟩ := e
    have hhead := h (k₁, ts) (List.mem_cons_self _ _)
    have htail : GroupsWF rest L := fun g hg => h g (List.mem_cons_of_mem _ hg)
    intro g hg
    by_cases hk₁ : k₁ = k
    · rw [insertGroup_cons, if_pos hk₁] at hg
      rcases List.mem_cons.mp hg with hg | hg
      · subst hg
        refine ⟨by simp, fun x hx => ?_⟩
        rcases List.mem_append.mp hx with hx | hx
        · exact ⟨(hhead.2 x hx).1, (hhead.2 x hx).2⟩
        · have hxt : x = t := by simpa using hx
          subst hxt
          exact ⟨hk.trans hk₁.symm, ht⟩
      · exact htail g hg
    · rw [insertGroup_cons, if_neg hk₁] at hg
      rcases List.mem_cons.mp hg with hg | hg
      · subst hg
        exact hhead
      · exact ih htail g hg

/-- The grouping of a transaction list is well formed over that list. -/
theorem groupTx_wf (T : List Transaction) : GroupsWF (groupTx T) T := by
  induction T using List.reverseRecOn with
  | nil => intro g hg; simp [groupTx] at hg
  | append_singleton L t ih =>
    rw [groupTx_append_single]
    exact (ih.mono (by intro x hx; simp [hx])).insertGroup rfl (by simp)

/-- Inserting a transaction failing `q` into a grouping whose `k`-keyed groups
also fail `q` does not change the `q`-homogeneous groups. -/
theorem filterGroups_insertGroup_neg (q : Transaction → Bool)
    (gs : List (String × List Transaction)) (k : String) (t : Transaction)
    (hqt : q t = false)
    (hgs : ∀ g ∈ gs, g.1 = k → g.2 ≠ [] ∧ ∀ x ∈ g.2, q x = false) :
    (insertGroup gs k t).filter (fun g => g.2.all q) =
      gs.filter (fun g => g.2.all q) := by
  induction gs with
  | nil => simp [insertGroup, List.filter_cons, hqt]
  | cons e rest ih =>
    obtain ⟨k₁, ts⟩ := e
    by_cases hk : k₁ = k
    · subst hk
      obtain ⟨hne, hall⟩ := hgs (k₁, ts) (List.mem_cons_self _ _) rfl
      have hts : ts.all q = false := by
        cases ts with
        | nil => exact absurd rfl hne
        | cons a as => simp [List.all_cons, hall a (List.mem_cons_self _ _)]
      have hts₂ : (ts ++ [t]).all q = false := by
        simp [List.all_append, hts]
      simp [insertGroup, List.filter_cons, hts, hts₂]
    · have hrest : ∀ g ∈ rest, g.1 = k → g.2 ≠ [] ∧ ∀ x ∈ g.2, q x = false :=
        fun g hg => hgs g (List.mem_cons_of_mem _ hg)
      rw [insertGroup_cons, if_neg hk, List.filter_cons, List.filter_cons,
        ih hrest]

/-- Inserting a transaction satisfying `q` commutes with restricting the
grouping to its `q`-homogeneous groups, provided the `k`-keyed groups are
`q`-homogeneous. -/
theorem insertGroup_filterGroups_pos (q : Transaction → Bool)
    (gs : List (String × List Transaction)) (k : String) (t : Transaction)
    (hqt : q t = true)
    (hgs : ∀ g ∈ gs, g.1 = k → g.2.all q = true) :
    insertGroup (gs.filter (fun g => g.2.all q)) k t =
      (insertGroup gs k t).filter (fun g => g.2.all q) := by
  induction gs with
  | nil => simp [insertGroup_nil, List.filter_cons, hqt]
  | cons e rest ih =>
    obtain ⟨k₁, ts⟩ := e
    have hrest : ∀ g ∈ rest, g.1 = k → g.2.all q = true :=
      fun g hg => hgs g (List.mem_cons_of_mem _ hg)
    by_cases hk : k₁ = k
    · subst hk
      have hts : ts.all q = true := hgs (k₁, ts) (List.mem_cons_self _ _) rfl
      have hts₂ : (ts ++ [t]).all q = true := by
        simp [List.all_append, hts, hqt]
      rw [List.filter_cons, if_pos (by simpa using hts), insertGroup_cons,
        if_pos rfl, insertGroup_cons, if_pos rfl, List.filter_cons,
        if_pos (by simpa using hts₂)]
    · rw [List.filter_cons, insertGroup_cons, if_neg hk, List.filter_cons]
      by_cases hts : ts.all q = true
      · rw [if_pos (by simpa using hts), if_pos (by simpa using hts),
          insertGroup_cons, if_neg hk, ih hrest]
      · have hts₂ : (ts.all q = true) = False := by simp [hts]
        rw [if_neg (by simp [hts]), if_neg (by simp [hts]), ih hrest]

/-- Grouping commutes with filtering by a predicate that is constant on each
symbol class: the groups of the filtered list are exactly the
`q`-homogeneous groups of the original grouping, in order. -/
theorem groupTx_filter (q : Transaction → Bool) (T : List Transaction)
    (hconst : ∀ t₁ ∈ T, ∀ t₂ ∈ T, keyOf t₁ = keyOf t₂ → q t₁ = q t₂) :
    groupTx (T.filter q) = (groupTx T).filter (fun g => g.2.all q) := by
  induction T using List.reverseRecOn with
  | nil => simp [groupTx]
  | append_singleton L t ih =>
    have hconstL : ∀ t₁ ∈ L, ∀ t₂ ∈ L, keyOf t₁ = keyOf t₂ → q t₁ = q t₂ := by
      intro a ha b hb
      exact hconst a (by simp [ha]) b (by simp [hb])
    have hwf := groupTx_wf L
    rw [List.filter_append, groupTx_append_single]
    cases hqt : q t with
    | false =>
      have hft : List.filter q [t] = [] := by simp [hqt]
      rw [hft, List.append_nil, ih hconstL]
      refine (filterGroups_insertGroup_neg q (groupTx L) (keyOf t) t hqt ?_).symm
      intro g hg hk₁
      obtain ⟨hne, hmem⟩ := hwf g hg
      refine ⟨hne, fun x hx => ?_⟩
      obtain ⟨hkx, hxL⟩ := hmem x hx
      have hq : q x = q t :=
        hconst x (by simp [hxL]) t (by simp) (by rw [hkx, hk₁])
      rw [hq, hqt]
    | true =>
      have hft : List.filter q [t] = [t] := by simp [hqt]
      rw [hft, groupTx_append_single, ih hconstL]
      refine insertGroup_filterGroups_pos q (groupTx L) (keyOf t) t hqt ?_
      intro g hg hk₁
      obtain ⟨hne, hmem⟩ := hwf g hg
      rw [List.all_eq_true]
      intro x hx
      obtain ⟨hkx, hxL⟩ := hmem x hx
      have hq : q x = q t :=
        hconst x (by simp [hxL]) t (by simp) (by rw [hkx, hk₁])
      rw [hq, hqt]

/-- Reading one bucket after a bucketed accumulation. -/
theorem statsFor_bucketAccum (ps : PortfolioStats) (c c₁ : Currency)
    (s : StockSummary) :
    statsFor (bucketAccum ps c₁ s) c =
      if c₁ = c then accumStats (statsFor ps c) s else statsFor ps c := by
  cases c <;> cases c₁ <;> simp [bucketAccum, statsFor]

/-- One bucket of the currency-partitioned fold is the flat accumulation over
the groups of that currency only. -/
theorem statsFor_fold (P : List (String × ℚ))
    (gs : List (String × List Transaction)) (ps : PortfolioStats)
    (c : Currency) :
    statsFor (gs.foldl
        (fun ps g => bucketAccum ps (groupCurrency g.2) (processGroup P g.1 g.2))
        ps) c =
      (gs.filter (fun g => groupCurrency g.2 == c)).foldl
        (fun st g => accumStats st (processGroup P g.1 g.2)) (statsFor ps c) := by
  induction gs generalizing ps with
  | nil => simp
  | cons g rest ih =>
    rw [List.foldl_cons, ih, List.filter_cons, statsFor_bucketAccum]
    by_cases hc : groupCurrency g.2 = c
    · simp [hc]
    · have hb : (groupCurrency g.2 == c) = false := by
        simp [hc]
      simp [hc, hb]

/-- Under per-symbol currency homogeneity, a group is `c`-homogeneous exactly
when its group currency is `c`. -/
theorem group_all_currency (T : List Transaction)
    (hcur : ∀ t₁ ∈ T, ∀ t₂ ∈ T, keyOf t₁ = keyOf t₂ → t₁.currency = t₂.currency)
    (c : Currency) (g : String × List Transaction) (hg : g ∈ groupTx T) :
    g.2.all (fun t => t.currency == c) = (groupCurrency g.2 == c) := by
  obtain ⟨hne, hmem⟩ := groupTx_wf T g hg
  obtain ⟨t₀, ht₀⟩ : ∃ t₀, (sortByDate g.2).head? = some t₀ := by
    cases hs : sortByDate g.2 with
    | nil =>
      exfalso
      have hperm : (sortByDate g.2).Perm g.2 := by
        rw [sortByDate]
        exact List.perm_insertionSort _ _
      rw [hs] at hperm
      exact hne hperm.nil_eq.symm
    | cons a as => exact ⟨a, rfl⟩
  have ht₀mem : t₀ ∈ g.2 := by
    have hin : t₀ ∈ sortByDate g.2 := by
      cases hs : sortByDate g.2 with
      | nil => rw [hs] at ht₀; exact absurd ht₀ (by simp)
      | cons a as =>
        rw [hs] at ht₀
        simp only [List.head?_cons, Option.some.injEq] at ht₀
        subst ht₀
        simp [hs]
    have hperm : (sortByDate g.2).Perm g.2 := by
      rw [sortByDate]
      exact List.perm_insertionSort _ _
    exact hperm.mem_iff.mp hin
  have hgc : groupCurrency g.2 = t₀.currency := by
    rw [groupCurrency, ht₀]
  have hsame : ∀ x ∈ g.2, x.currency = t₀.currency := by
    intro x hx
    obtain ⟨hkx, hxT⟩ := hmem x hx
    obtain ⟨hk₀, h₀T⟩ := hmem t₀ ht₀mem
    exact hcur x hxT t₀ h₀T (by rw [hkx, hk₀])
  by_cases hc : t₀.currency = c
  · have hall : g.2.all (fun t => t.currency == c) = true := by
      rw [List.all_eq_true]
      intro x hx
      simp [hsame x hx, hc]
    rw [hall, hgc]
    simp [hc]
  · have hall : g.2.all (fun t => t.currency == c) = false := by
      rw [List.all_eq_false]
      exact ⟨t₀, ht₀mem, by simp [hc]⟩
    rw [hall, hgc]
    simp [hc]

/-- **C2 counterexample.** On a mixed-currency symbol group (a CAD and a USD
buy of the same symbol), the modelled engine books the USD transaction into
the CAD bucket, so the CAD stats differ from the CAD stats of the CAD-only
transactions: the claim fails for arbitrary transaction lists. -/
theorem currency_isolation_counterexample :
    statsFor (currencyStatsModel [txCadA, txUsdA] []) .CAD ≠
      statsFor (currencyStatsModel
        ([txCadA, txUsdA].filter (fun t => t.currency == Currency.CAD)) [])
        .CAD := by
  norm_num +decide [currencyStatsModel, groupTx, insertGroup, keyOf,
    normSym_BNS, bucketAccum, groupCurrency, statsFor, processGroup,
    replayGroup, sortByDate, List.insertionSort, List.orderedInsert,
    replayStep, clampCloseOut, avgCostOf, priceFor, epsilon, accumStats,
    List.filter_cons, txCadA, txUsdA]

/-- **C2 (amended).** For a transaction list in which transactions sharing a
normalized symbol also share a currency, each currency's aggregate bucket
equals the bucket computed from only that currency's transactions: USD
transactions never contribute to the CAD stats and vice versa. -/
theorem currency_isolation (T : List Transaction) (P : List (String × ℚ))
    (hcur : ∀ t₁ ∈ T, ∀ t₂ ∈ T, keyOf t₁ = keyOf t₂ → t₁.currency = t₂.currency) :
    ∀ c : Currency,
      statsFor (currencyStatsModel T P) c =
        statsFor (currencyStatsModel (T.filter (fun t => t.currency == c)) P) c := by
  intro c
  rw [currencyStatsModel, currencyStatsModel, statsFor_fold, statsFor_fold,
    groupTx_filter (fun t => t.currency == c) T
      (fun a ha b hb hk => by
        change (a.currency == c) = (b.currency == c)
        rw [hcur a ha b hb hk]),
    List.filter_filter]
  have hfc : ∀ g ∈ groupTx T,
      ((groupCurrency g.2 == c) && g.2.all (fun t => t.currency == c)) =
        (groupCurrency g.2 == c) := by
    intro g hg
    rw [group_all_currency T hcur c g hg, Bool.and_self]
  rw [List.filter_congr hfc]

/-- Witness for C2: two single-currency groups (a USD and a CAD symbol); the
USD bucket coincides with the USD bucket of the USD-only transactions. -/
theorem currency_isolation_witness :
    statsFor (currencyStatsModel [txBuy1, txCadA] []) .USD =
      statsFor (currencyStatsModel
        ([txBuy1, txCadA].filter (fun t => t.currency == Currency.USD)) [])
        .USD :=
  currency_isolation [txBuy1, txCadA] [] (by decide) .USD

/-- Witness for C9: one open priced position allocates 100%. -/
theorem allocation_percents_sum_witness :
    (allocationPercents [txBuy1] [("AAPL", 150)]).sum = 100 :=
  allocation_percents_sum [txBuy1] [("AAPL", 150)]
    (by
      intro s hs
      norm_num +decide [computePortfolio, groupSummaries, groupTx, insertGroup,
        keyOf, normSym_AAPL, sortSummaries, List.insertionSort,
        List.orderedInsert, processGroup, replayGroup, sortByDate, replayStep,
        clampCloseOut, avgCostOf, priceFor, epsilon, txBuy1] at hs
      subst hs
      refine ⟨by norm_num, by simp⟩)
    (by
      norm_num +decide [computeStats, groupSummaries, groupTx, insertGroup,
        keyOf, normSym_AAPL, processGroup, replayGroup, sortByDate, replayStep,
        clampCloseOut, avgCostOf, priceFor, epsilon, accumStats, txBuy1])

end TradeTrack
